import Mathlib

/-!
Verification of the chunked transcription orchestrator in
`src/src/main.rs` (`woutermans/audio-transcriber`).

The embedding is shallow: every definition below mirrors one function or
loop of `src/src/main.rs` (line references in the doc comments).  Machine
integers are modelled as `Nat`/`Int` with the machine arithmetic explicit
where it can act: the narrowing conversion `as u64` on an `i64`
(main.rs:236-237) carries an explicit `% 2^64`, and the `u32` subtitle
counter (main.rs:152, 219, 241) an explicit `% 2^32`.  The audio samples (`f32` in the source) are a type
parameter: the orchestrator never inspects a sample's value, it only
slices the buffer, so sample values play no role in any property here.
The whisper inference engine is an external collaborator; a run's engine
behaviour is modelled as the function sending each window index to the
segment list the engine returned for that window.
-/

namespace Transcriber

/-- Sample format of a WAV file, mirroring `hound::SampleFormat`
(`Int` or `Float`). -/
inductive WavSampleFormat
| int
| float
deriving DecidableEq

/-- The observable content of a decoded WAV file as `parse_wav_file`
(main.rs:24-61) sees it through `hound`: the header fields it checks and
the `i16` sample sequence it returns. -/
structure WavFile where
  channels : Nat
  sample_format : WavSampleFormat
  sample_rate : Nat
  bits_per_sample : Nat
  samples : List Int

/-- Models `parse_wav_file` (main.rs:24-61): the four sequential format
checks, each rejecting with the message the source uses, and on success
the full sample sequence. -/
def parse_wav_file (w : WavFile) : Except String (List Int) :=
  if w.channels ≠ 1 then .error "Expected mono audio file"
  else if w.sample_format ≠ WavSampleFormat.int then .error "Expected integer sample format"
  else if w.sample_rate ≠ 16000 then .error "Expected 16KHz sample rate"
  else if w.bits_per_sample ≠ 16 then .error "Expected 16 bits per sample"
  else .ok w.samples

/-- One segment as returned by the whisper engine for a window:
`full_get_segment_t0`/`t1` are `i64` centisecond offsets local to the
window (modelled as `Int`), the text is the segment's bytes decoded
lossily to a string (main.rs:229-232). -/
structure EngSeg where
  t0 : Int
  t1 : Int
  text : String
deriving DecidableEq

/-- The `Subtitle` struct of main.rs:151-156: `seq : u32`,
`start_time_cs`/`end_time_cs : u64` (centiseconds), `text`.  The three
machine-integer fields are modelled as `Nat`, with the machine
arithmetic made explicit where the stitching loop stores values into
them: the `u64` fields receive the `as u64` cast (`i64_to_u64` below)
and `seq` receives the `u32` wrap-around of the running counter
(`u32_wrap` below), so every stored field is exactly the value the
program stores. -/
structure Subtitle where
  seq : Nat
  start_time_cs : Nat
  end_time_cs : Nat
  text : String
deriving DecidableEq

/-- Rust's `x as u64` on an `i64` value: reinterpretation modulo
`2^64`.  For an `i64` in `[-2^63, 2^63)` this is exactly the cast the
source performs at main.rs:236-237. -/
def i64_to_u64 (x : Int) : Nat := (x % (2 : Int) ^ 64).toNat

/-- The per-window advance of `total_cs` (main.rs:244):
`(chunk_size as f32 / 16000.0 * 100.0) as i64`, the nominal window
duration in centiseconds.  Modelled as exact integer arithmetic
`⌊chunk_size * 100 / 16000⌋`; for the chunk size the program uses
(`CHUNK_SIZE = 480000`, main.rs:368) every intermediate `f32` value
(480000, 30, 3000) is an exactly representable integer, so the `f32`
computation is exact and agrees with this definition (both give 3000). -/
def chunk_cs (chunk_size : Nat) : Int := ((chunk_size : Int) * 100) / 16000

/-- Rust's `slice::chunks` (main.rs:204): split the buffer into
consecutive slices of `n` elements, the last slice possibly shorter.
`chunks(0)` panics in Rust; the model returns `[]` for `n = 0` and no
theorem below uses that branch. -/
def chunks : List α → Nat → List (List α)
  | [], _ => []
  | _ :: _, 0 => []
  | x :: xs, n + 1 => (x :: xs.take n) :: chunks (xs.drop n) (n + 1)
termination_by l _ => l.length
decreasing_by
  simp only [List.length_drop, List.length_cons]
  omega

/-- Rust's wrap-around of a `u32` value: reduction modulo `2^32`.
`seq_number` in the source is a `u32` (it is stored into
`Subtitle.seq : u32`, main.rs:152/235) incremented once per pushed
subtitle (main.rs:241), so in release builds it wraps at `2^32`. -/
def u32_wrap (n : Nat) : Nat := n % 2 ^ 32

/-- The inner segment loop of the stitcher (main.rs:228-242): for each
engine segment, push a `Subtitle` with the running `seq_number` and the
local offsets rebased by `total_cs` and narrowed `as u64`.  The model
threads the exact push count and reduces it modulo `2^32` where the
loop stores it; this yields the same stored values as the source's
per-increment `u32` wrap-around, since `Nat` addition commutes with
`% 2^32`. -/
def pushSegs (total : Int) : List EngSeg → Nat → List Subtitle
  | [], _ => []
  | g :: gs, seq =>
      { seq := u32_wrap seq
        start_time_cs := i64_to_u64 (g.t0 + total)
        end_time_cs := i64_to_u64 (g.t1 + total)
        text := g.text } :: pushSegs total gs (seq + 1)

/-- The window loop of `handle_transcription` (main.rs:222-246): process
the windows in order; for window `i` the engine returns `engine i`; after
a window's segments are pushed, `seq_number` has advanced by the segment
count and `total_cs` by `delta` (the nominal window duration,
`chunk_cs chunk_size` at the call site). -/
def stitchWindows (engine : Nat → List EngSeg) (delta : Int) :
    List (List α) → Nat → Nat → Int → List Subtitle
  | [], _, _, _ => []
  | _ :: ws, i, seq, total =>
      pushSegs total (engine i) seq
        ++ stitchWindows engine delta ws (i + 1) (seq + (engine i).length) (total + delta)

/-- The pure transcription core of `handle_transcription`
(main.rs:185-246): partition the samples with `chunks(chunk_size)`, then
run the stitching loop with `seq_number = 1` and `total_cs = 0`,
advancing `total_cs` by the nominal window duration per window. -/
def handle_transcription (engine : Nat → List EngSeg) (samples : List α)
    (chunk_size : Nat) : List Subtitle :=
  stitchWindows engine (chunk_cs chunk_size) (chunks samples chunk_size) 0 1 0

/-- Rust's `{:02}` formatting of a nonnegative integer: decimal digits,
zero-padded on the left to width 2 (main.rs:164). -/
def pad2 (n : Nat) : String := if n < 10 then "0" ++ toString n else toString n

/-- Rust's `{:03}` formatting of a nonnegative integer: decimal digits,
zero-padded on the left to width 3 (main.rs:164). -/
def pad3 (n : Nat) : String :=
  if n < 10 then "00" ++ toString n
  else if n < 100 then "0" ++ toString n
  else toString n

/-- Models `cs_to_srt_time` (main.rs:158-165): centiseconds to
`HH:MM:SS,mmm`, the hours field reduced modulo 24. -/
def cs_to_srt_time (cs : Nat) : String :=
  let seconds := cs / 100
  let milliseconds := (cs % 100) * 10
  let hours := (seconds / 3600) % 24
  let minutes := (seconds % 3600) / 60
  let seconds2 := seconds % 60
  pad2 hours ++ ":" ++ pad2 minutes ++ ":" ++ pad2 seconds2 ++ "," ++ pad3 milliseconds

/-- Models `subtitle_to_srt` (main.rs:167-171):
`format!("{}\n{} --> {}\n{}\n", seq, start, end, text)`. -/
def subtitle_to_srt (sub : Subtitle) : String :=
  toString sub.seq ++ "\n" ++ cs_to_srt_time sub.start_time_cs ++ " --> "
    ++ cs_to_srt_time sub.end_time_cs ++ "\n" ++ sub.text ++ "\n"

/-- The SRT writing loop of main.rs:256-258: each subtitle's
`subtitle_to_srt` rendering written in order; the model returns the
written file's content. -/
def srt_output : List Subtitle → String
  | [] => ""
  | s :: rest => subtitle_to_srt s ++ srt_output rest

/-- The timestamped-transcript writing loop of main.rs:266-276:
`format!("[{} --> {}]: {}\n", cs_to_srt_time start, cs_to_srt_time end, text)`
per subtitle, in order; the model returns the written file's content. -/
def timestamps_output : List Subtitle → String
  | [] => ""
  | s :: rest =>
      "[" ++ cs_to_srt_time s.start_time_cs ++ " --> " ++ cs_to_srt_time s.end_time_cs
        ++ "]: " ++ s.text ++ "\n" ++ timestamps_output rest

/-- Models `write_raw_transcript` (main.rs:173-183): each subtitle's
text bytes written in order with nothing between them; the model returns
the written file's content. -/
def write_raw_transcript : List Subtitle → String
  | [] => ""
  | s :: rest => s.text ++ write_raw_transcript rest

/-- The flow of `main` (main.rs:350-371) from WAV parsing to
transcription: a format violation aborts before any windowing; on
success the samples are transcribed.  (`convert_integer_to_float_audio`,
main.rs:358-365, converts each `i16` sample to an `f32` of the same
position; it preserves the buffer's length and the orchestrator never
reads the converted values, so the model passes the parsed samples
straight through.) -/
def main_pipeline (engine : Nat → List EngSeg) (w : WavFile)
    (chunk_size : Nat) : Except String (List Subtitle) :=
  match parse_wav_file w with
  | .error e => .error e
  | .ok samples => .ok (handle_transcription engine samples chunk_size)

/-- The observable data of an emitted subtitle: global start, global end
(as stored in the `u64` fields) and text. -/
def segTriple (s : Subtitle) : Nat × Nat × String :=
  (s.start_time_cs, s.end_time_cs, s.text)

/-- The stitching algorithm as the spec states it (§4.3, advancement
policy (a)): window `i`'s segments are emitted rebased by the cumulative
offset `i * delta`, `delta` the nominal window duration, windows in
order.  Written from the spec's words for the refinement claim C1; the
`i64_to_u64` narrowing records that the emitted fields are the `u64`
images of `local + offset`. -/
def spec_global (engine : Nat → List EngSeg) (n : Nat) (delta : Int) :
    List (Nat × Nat × String) :=
  (List.range n).flatMap fun i =>
    (engine i).map fun g =>
      (i64_to_u64 (g.t0 + (i : Int) * delta), i64_to_u64 (g.t1 + (i : Int) * delta), g.text)

/-- The deterministic engine stub of the spec's two-window scenario
(§8): window 0 yields `(0, 1500cs, "hello")`, window 1 yields
`(0, 1000cs, "world")`. -/
def engineStub : Nat → List EngSeg := fun i =>
  if i = 0 then [⟨0, 1500, "hello"⟩]
  else if i = 1 then [⟨0, 1000, "world"⟩]
  else []

/-- The decimal digit character for `k < 10`. -/
def dch (k : Nat) : Char := Char.ofNat (48 + k)

/-- The numeric value of a decimal digit character, `none` on any other
character. -/
def digitVal (c : Char) : Option Nat :=
  if c.isDigit then some (c.toNat - 48) else none

/-- Modelled from the spec: §8 requires "converting a centisecond value
to `HH:MM:SS,mmm` and back", but the repository contains no parser for
the rendering, so the backward conversion is written from the spec's
words: read the fixed-shape `HH:MM:SS,mmm` string (two digits, colon,
two digits, colon, two digits, comma, three digits) and return
`(HH*3600 + MM*60 + SS) * 100 + mmm/10` centiseconds. -/
def parse_srt_timestamp : List Char → Option Nat
  | [h1, h2, c1, m1, m2, c2, s1, s2, c3, x1, x2, x3] =>
    if c1 = ':' ∧ c2 = ':' ∧ c3 = ',' then
      match digitVal h1, digitVal h2, digitVal m1, digitVal m2, digitVal s1,
          digitVal s2, digitVal x1, digitVal x2, digitVal x3 with
      | some a, some b, some c, some d, some e, some f, some g, some h, some i =>
          some (((a * 10 + b) * 3600 + (c * 10 + d) * 60 + (e * 10 + f)) * 100
            + (g * 100 + h * 10 + i) / 10)
      | _, _, _, _, _, _, _, _, _ => none
    else none
  | _ => none

/-- Modelled from the spec: the backward conversion of §8's round-trip
property, on strings. -/
def srt_time_to_cs (s : String) : Option Nat := parse_srt_timestamp s.data

/-- Scanner for a blank line: does the character list contain two
consecutive newlines anywhere? -/
def hasDoubleNewline : List Char → Bool
  | c1 :: c2 :: rest => (c1 = '\n' && c2 = '\n') || hasDoubleNewline (c2 :: rest)
  | _ => false

/-! ## Properties of the batch partitioner (`slice::chunks`) -/

theorem chunks_nil (n : Nat) : chunks ([] : List α) n = [] := by
  cases n <;> simp [chunks]

theorem chunks_ne_nil (y : α) (ys : List α) (n : Nat) :
    chunks (y :: ys) (n + 1) ≠ [] := by
  simp [chunks]

theorem chunks_length (xs : List α) (n : Nat) :
    0 < n → (chunks xs n).length = (xs.length + n - 1) / n := by
  induction xs, n using chunks.induct with
  | case1 n =>
    intro hn
    simp only [chunks, List.length_nil, List.length]
    rw [Nat.div_eq_of_lt (by omega)]
  | case2 x xs => intro h; omega
  | case3 x xs n ih =>
    intro _
    have ihv := ih (by omega)
    simp only [chunks, List.length_cons, List.length_drop] at ihv ⊢
    rw [ihv]
    have h1 : xs.length + 1 + (n + 1) - 1 = xs.length + (n + 1) := by omega
    have h2 : xs.length - n + (n + 1) - 1 = xs.length - n + n := by omega
    rw [h1, h2, Nat.add_div_right _ (by omega)]
    rcases Nat.lt_or_ge xs.length n with hm | hm
    · have h0 : xs.length - n = 0 := by omega
      rw [h0, Nat.div_eq_of_lt (by omega), Nat.div_eq_of_lt (by omega)]
    · have : xs.length - n + n = xs.length := by omega
      rw [this]

theorem chunks_flatten (xs : List α) (n : Nat) :
    0 < n → (chunks xs n).flatten = xs := by
  induction xs, n using chunks.induct with
  | case1 n => intro _; simp [chunks]
  | case2 x xs => intro h; omega
  | case3 x xs n ih =>
    intro _
    simp only [chunks, List.flatten_cons, ih (by omega), List.cons_append,
      List.take_append_drop]

theorem chunks_dropLast (xs : List α) (n : Nat) :
    0 < n → ∀ w ∈ (chunks xs n).dropLast, w.length = n := by
  induction xs, n using chunks.induct with
  | case1 n => intro _; simp [chunks]
  | case2 x xs => intro h; omega
  | case3 x xs n ih =>
    intro _
    simp only [chunks]
    rcases hr : chunks (xs.drop n) (n + 1) with _ | ⟨r, rs⟩
    · simp
    · rw [List.dropLast_cons₂]
      intro w hw
      rcases List.mem_cons.mp hw with hw | hw
      · have hd : xs.drop n ≠ [] := by
          intro hnil
          rw [hnil, chunks_nil] at hr
          exact List.noConfusion hr
        have hlen : n ≤ xs.length := by
          rcases Nat.lt_or_ge xs.length n with h | h
          · exact absurd (List.drop_eq_nil_of_le (by omega)) hd
          · exact h
        subst hw
        simp [List.length_take, Nat.min_eq_left hlen]
      · exact ih (by omega) w (by rw [hr]; exact hw)

theorem chunks_getLast (xs : List α) (n : Nat) :
    0 < n → ∀ w, (chunks xs n).getLast? = some w →
      w.length = if xs.length % n = 0 then n else xs.length % n := by
  induction xs, n using chunks.induct with
  | case1 n => intro _ w hw; rw [chunks_nil] at hw; exact Option.noConfusion hw
  | case2 x xs => intro h; omega
  | case3 x xs n ih =>
    intro _ w hw
    simp only [chunks] at hw
    rcases hr : chunks (xs.drop n) (n + 1) with _ | ⟨r, rs⟩
    · rw [hr] at hw
      simp only [List.getLast?_singleton, Option.some.injEq] at hw
      have hd : xs.drop n = [] := by
        rcases hd : xs.drop n with _ | ⟨y, ys⟩
        · rfl
        · rw [hd] at hr; exact absurd hr (chunks_ne_nil y ys n)
      have hlen : xs.length ≤ n := by
        have := List.length_drop n xs
        rw [hd] at this
        simp at this
        omega
      subst hw
      simp only [List.length_cons, List.length_take, Nat.min_eq_right hlen,
        List.length]
      rcases Nat.lt_or_ge xs.length n with hm | hm
      · rw [if_neg]
        · rw [Nat.mod_eq_of_lt (by omega)]
        · rw [Nat.mod_eq_of_lt (by omega)]; omega
      · have : xs.length = n := by omega
        subst this
        rw [if_pos (by rw [Nat.mod_self])]
    · rw [hr] at hw
      rw [List.getLast?_cons_cons] at hw
      have ihv := ih (by omega) w (by rw [hr]; exact hw)
      have hd : xs.drop n ≠ [] := by
        intro hnil
        rw [hnil, chunks_nil] at hr
        exact List.noConfusion hr
      have hlen : n < xs.length := by
        rcases Nat.lt_or_ge n xs.length with h | h
        · exact h
        · exact absurd (List.drop_eq_nil_of_le (by omega)) hd
      rw [List.length_drop] at ihv
      have hmod : (x :: xs).length % (n + 1) = (xs.length - n) % (n + 1) := by
        rw [List.length_cons, Nat.mod_eq_sub_mod (by omega)]
        congr 1
        omega
      rw [hmod]
      exact ihv

/-- C3: for every buffer of length `L` and window length `W > 0` the
partitioner yields exactly `⌈L / W⌉` windows (`(L + W - 1) / W`) that
concatenate back to the buffer in order — contiguous coverage of
`[0, L)` with no gap and no overlap — where every window but the last
has length `W` and the last has length `L mod W`, or `W` when `W`
divides `L`. -/
theorem C3_partition_coverage (α : Type) (xs : List α) (W : Nat) (hW : 0 < W) :
    (chunks xs W).length = (xs.length + W - 1) / W
    ∧ (chunks xs W).flatten = xs
    ∧ (∀ w ∈ (chunks xs W).dropLast, w.length = W)
    ∧ (∀ w, (chunks xs W).getLast? = some w →
        w.length = if xs.length % W = 0 then W else xs.length % W) :=
  ⟨chunks_length xs W hW, chunks_flatten xs W hW, chunks_dropLast xs W hW,
    chunks_getLast xs W hW⟩

theorem C3_partition_coverage_witness :
    0 < 2
    ∧ ((chunks [10, 11, 12, 13, 14] 2).length = (([10, 11, 12, 13, 14] : List Nat).length + 2 - 1) / 2
      ∧ (chunks [10, 11, 12, 13, 14] 2).flatten = [10, 11, 12, 13, 14]
      ∧ (∀ w ∈ (chunks ([10, 11, 12, 13, 14] : List Nat) 2).dropLast, w.length = 2)
      ∧ (∀ w, (chunks ([10, 11, 12, 13, 14] : List Nat) 2).getLast? = some w →
          w.length = if ([10, 11, 12, 13, 14] : List Nat).length % 2 = 0 then 2
            else ([10, 11, 12, 13, 14] : List Nat).length % 2)) :=
  ⟨by norm_num, C3_partition_coverage Nat [10, 11, 12, 13, 14] 2 (by norm_num)⟩

/-! ## The stitching loop re-bases local offsets by the cumulative offset -/

theorem pushSegs_map_triple (total : Int) (segs : List EngSeg) :
    ∀ seq, (pushSegs total segs seq).map segTriple
      = segs.map fun g =>
          (i64_to_u64 (g.t0 + total), i64_to_u64 (g.t1 + total), g.text) := by
  induction segs with
  | nil => intro seq; simp [pushSegs]
  | cons g gs ih => intro seq; simp [pushSegs, segTriple, ih]

theorem stitch_map_triple (engine : Nat → List EngSeg) (delta : Int)
    (ws : List (List β)) :
    ∀ (i seq : Nat),
      (stitchWindows engine delta ws i seq ((i : Int) * delta)).map segTriple
        = (List.range' i ws.length).flatMap fun k =>
            (engine k).map fun g =>
              (i64_to_u64 (g.t0 + (k : Int) * delta),
                i64_to_u64 (g.t1 + (k : Int) * delta), g.text) := by
  induction ws with
  | nil => intro i seq; simp [stitchWindows]
  | cons w ws ih =>
    intro i seq
    simp only [stitchWindows, List.map_append, List.length_cons, List.range'_succ,
      List.flatMap_cons]
    rw [pushSegs_map_triple]
    rw [show (i : Int) * delta + delta = ((i + 1 : Nat) : Int) * delta by push_cast; ring]
    rw [ih (i + 1) (seq + (engine i).length)]

theorem handle_map_triple (engine : Nat → List EngSeg) (samples : List β) (c : Nat) :
    (handle_transcription engine samples c).map segTriple
      = spec_global engine (chunks samples c).length (chunk_cs c) := by
  unfold handle_transcription spec_global
  rw [List.range_eq_range']
  have h := stitch_map_triple engine (chunk_cs c) (chunks samples c) 0 1
  simpa using h

/-- C1: every run of the stitching loop emits, for each engine segment of
each window, a global segment whose stored start and end are the `u64`
images of the segment's local start and end plus the window's cumulative
offset, the cumulative offset of window `i` being `i` times the nominal
window duration (advancement once per window by the nominal duration);
and on the spec's two-window scenario (two windows of 480000 samples at
16000 Hz, engine returning `(0, 1500cs, "hello")` then
`(0, 1000cs, "world")`) the emitted global segments are exactly
`(0, 1500, "hello")` and `(3000, 4000, "world")`. -/
theorem C1_stitch_rebase (α : Type) (engine : Nat → List EngSeg)
    (samples : List α) (c : Nat) :
    ((handle_transcription engine samples c).map segTriple
      = spec_global engine (chunks samples c).length (chunk_cs c))
    ∧ (handle_transcription engineStub (List.replicate 960000 (0 : Int)) 480000).map segTriple
        = [(0, 1500, "hello"), (3000, 4000, "world")] := by
  refine ⟨handle_map_triple engine samples c, ?_⟩
  rw [handle_map_triple]
  have hl := chunks_length (List.replicate 960000 (0 : Int)) 480000 (by norm_num)
  rw [List.length_replicate] at hl
  norm_num at hl
  rw [hl]
  decide

/-! ## Monotonicity of the accumulated global timeline -/

theorem i64_to_u64_eq (x : Int) (h0 : 0 ≤ x) (h1 : x < 2 ^ 64) :
    i64_to_u64 x = x.toNat := by
  unfold i64_to_u64
  rw [Int.emod_eq_of_lt h0 h1]

theorem i64_to_u64_mono {x y : Int} (h0 : 0 ≤ x) (hxy : x ≤ y) (h1 : y < 2 ^ 64) :
    i64_to_u64 x ≤ i64_to_u64 y := by
  rw [i64_to_u64_eq x h0 (lt_of_le_of_lt hxy h1), i64_to_u64_eq y (le_trans h0 hxy) h1]
  exact Int.toNat_le_toNat hxy

theorem pushSegs_map_start (total : Int) (segs : List EngSeg) :
    ∀ seq, (pushSegs total segs seq).map (fun s => s.start_time_cs)
      = segs.map fun g => i64_to_u64 (g.t0 + total) := by
  induction segs with
  | nil => intro seq; simp [pushSegs]
  | cons g gs ih => intro seq; simp [pushSegs, ih]

theorem chain_rebase (total : Int) (l : List EngSeg)
    (hin : ∀ g ∈ l, 0 ≤ g.t0 + total ∧ g.t0 + total < 2 ^ 64)
    (hch : List.Chain' (fun a b => a.t0 ≤ b.t0) l) :
    List.Chain' (· ≤ ·) (l.map fun g => i64_to_u64 (g.t0 + total)) := by
  induction l with
  | nil => simp
  | cons a t ih =>
    cases t with
    | nil => simp
    | cons b t2 =>
      rw [List.chain'_cons] at hch
      simp only [List.map_cons] at ih ⊢
      rw [List.chain'_cons]
      constructor
      · have ha := hin a (by simp)
        have hb := hin b (by simp)
        exact i64_to_u64_mono ha.1 (by omega) hb.2
      · have := ih (fun g hg => hin g (List.mem_cons_of_mem a hg)) hch.2
        simpa using this

theorem stitch_starts_mono (engine : Nat → List EngSeg) (delta : Int)
    (hδ : 0 ≤ delta) (ws : List (List γ)) :
    ∀ (i seq : Nat) (total : Int),
      0 ≤ total →
      total + (ws.length : Int) * delta < 2 ^ 64 →
      (∀ k, i ≤ k → k < i + ws.length → ∀ g ∈ engine k, 0 ≤ g.t0 ∧ g.t0 ≤ delta) →
      (∀ k, i ≤ k → k < i + ws.length →
        List.Chain' (fun a b => a.t0 ≤ b.t0) (engine k)) →
      List.Chain' (· ≤ ·)
          ((stitchWindows engine delta ws i seq total).map (fun s => s.start_time_cs))
        ∧ ∀ x ∈ (stitchWindows engine delta ws i seq total).map (fun s => s.start_time_cs),
            total.toNat ≤ x := by
  induction ws with
  | nil =>
    intro i seq total _ _ _ _
    simp [stitchWindows]
  | cons w ws ih =>
    intro i seq total htot hbound hseg hord
    have hlen1 : (1 : Int) ≤ ((w :: ws).length : Int) := by
      simp only [List.length_cons]
      exact_mod_cast Nat.succ_le_succ (Nat.zero_le _)
    have hdle : delta ≤ ((w :: ws).length : Int) * delta := by nlinarith
    have hbound' : total + delta + (ws.length : Int) * delta < 2 ^ 64 := by
      have : total + delta + (ws.length : Int) * delta
          = total + ((w :: ws).length : Int) * delta := by
        simp only [List.length_cons]
        push_cast
        ring
      omega
    have hrest := ih (i + 1) (seq + (engine i).length) (total + delta)
      (by omega) hbound'
      (fun k hk1 hk2 g hg => hseg k (by omega) (by simp only [List.length_cons]; omega) g hg)
      (fun k hk1 hk2 => hord k (by omega) (by simp only [List.length_cons]; omega))
    have hwin := hseg i (le_refl i) (by simp only [List.length_cons]; omega)
    have hinrange : ∀ g ∈ engine i, 0 ≤ g.t0 + total ∧ g.t0 + total < 2 ^ 64 := by
      intro g hg
      have hgb := hwin g hg
      constructor
      · omega
      · have : g.t0 + total ≤ total + ((w :: ws).length : Int) * delta := by
          have := hgb.2
          omega
        omega
    have hchainA := chain_rebase total (engine i) hinrange
      (hord i (le_refl i) (by simp only [List.length_cons]; omega))
    have hAub : ∀ x ∈ (engine i).map fun g => i64_to_u64 (g.t0 + total),
        x ≤ (total + delta).toNat := by
      intro x hx
      rcases List.mem_map.mp hx with ⟨g, hg, hgx⟩
      have hgb := hwin g hg
      have hd2 : total + delta < 2 ^ 64 := by omega
      have : i64_to_u64 (g.t0 + total) ≤ i64_to_u64 (total + delta) :=
        i64_to_u64_mono (by omega) (by omega) hd2
      rw [i64_to_u64_eq (total + delta) (by omega) hd2] at this
      omega
    have hAlb : ∀ x ∈ (engine i).map fun g => i64_to_u64 (g.t0 + total),
        total.toNat ≤ x := by
      intro x hx
      rcases List.mem_map.mp hx with ⟨g, hg, hgx⟩
      have hgb := hwin g hg
      have hx64 : g.t0 + total < 2 ^ 64 := (hinrange g hg).2
      rw [← hgx, i64_to_u64_eq (g.t0 + total) (by omega) hx64]
      omega
    simp only [stitchWindows, List.map_append, pushSegs_map_start]
    constructor
    · rw [List.chain'_append]
      refine ⟨hchainA, hrest.1, ?_⟩
      intro x hx y hy
      have hxA : x ∈ (engine i).map fun g => i64_to_u64 (g.t0 + total) :=
        List.mem_of_mem_getLast? hx
      have hyB := hrest.2 y (List.mem_of_mem_head? hy)
      have := hAub x hxA
      omega
    · intro x hx
      rcases List.mem_append.mp hx with hxA | hxB
      · exact hAlb x hxA
      · have := hrest.2 x hxB
        have : (total : Int).toNat ≤ (total + delta).toNat := by
          apply Int.toNat_le_toNat
          omega
        omega

theorem chunk_cs_natCast (c : Nat) : chunk_cs c = ((c * 100 / 16000 : Nat) : Int) := by
  unfold chunk_cs
  omega

theorem chunk_cs_nonneg (c : Nat) : 0 ≤ chunk_cs c := by
  rw [chunk_cs_natCast]
  exact_mod_cast Nat.zero_le _

theorem window_budget (L c : Nat) (hc : 0 < c) (hL : L ≤ 2 ^ 61) (hcu : c ≤ 2 ^ 64) :
    (L + c - 1) / c * (c * 100 / 16000) < 2 ^ 63 := by
  have hd : c * 100 / 16000 = c / 160 := by
    rw [show (16000 : Nat) = 160 * 100 by norm_num, Nat.mul_div_mul_right _ _ (by norm_num)]
  rw [hd]
  have hn : (L + c - 1) / c ≤ L / c + 1 := by
    have h1 : L + c - 1 ≤ L + c := by omega
    calc (L + c - 1) / c ≤ (L + c) / c := Nat.div_le_div_right h1
      _ = L / c + 1 := Nat.add_div_right L hc
  have step1 : (L + c - 1) / c * (c / 160) ≤ (L / c + 1) * (c / 160) :=
    Nat.mul_le_mul_right _ hn
  have step2 : L / c * (c / 160) ≤ L / 160 := by
    have h1 : L / c * (c / 160) ≤ L / c * c / 160 := by
      rw [Nat.le_div_iff_mul_le (by norm_num : 0 < 160)]
      calc L / c * (c / 160) * 160 = L / c * (c / 160 * 160) := by ring
        _ ≤ L / c * c := Nat.mul_le_mul_left _ (Nat.div_mul_le_self c 160)
    have h2 : L / c * c / 160 ≤ L / 160 :=
      Nat.div_le_div_right (Nat.div_mul_le_self L c)
    omega
  have step3 : L / 160 ≤ 2 ^ 61 / 160 := Nat.div_le_div_right hL
  have step4 : c / 160 ≤ 2 ^ 64 / 160 := Nat.div_le_div_right hcu
  calc (L + c - 1) / c * (c / 160) ≤ (L / c + 1) * (c / 160) := step1
    _ = L / c * (c / 160) + c / 160 := by ring
    _ ≤ L / 160 + 2 ^ 64 / 160 := by omega
    _ ≤ 2 ^ 61 / 160 + 2 ^ 64 / 160 := by omega
    _ < 2 ^ 63 := by norm_num

/-- C2: in every run whose input is representable in the program (a
sample buffer no longer than a `Vec<f32>` can be, a `usize` chunk size)
and in which, for every window, the engine returns segments with
non-negative local start offsets, non-decreasing within the window and
at most the nominal window duration, the start offsets of the
accumulated global segment sequence are non-decreasing across the whole
run, window boundaries included. -/
theorem C2_monotonic_starts (α : Type) (engine : Nat → List EngSeg)
    (samples : List α) (c : Nat)
    (hsamples : samples.length ≤ 2 ^ 61)
    (hc : c ≤ 2 ^ 64)
    (hseg : ∀ k < (chunks samples c).length, ∀ g ∈ engine k,
      0 ≤ g.t0 ∧ g.t0 ≤ chunk_cs c)
    (hord : ∀ k < (chunks samples c).length,
      List.Chain' (fun a b => a.t0 ≤ b.t0) (engine k)) :
    List.Chain' (· ≤ ·)
      ((handle_transcription engine samples c).map (fun s => s.start_time_cs)) := by
  unfold handle_transcription
  rcases Nat.eq_zero_or_pos c with hc0 | hcpos
  · subst hc0
    have hnil : chunks samples 0 = [] := by
      cases samples <;> simp [chunks]
    rw [hnil]
    simp [stitchWindows]
  · have hbound : (0 : Int) + ((chunks samples c).length : Int) * chunk_cs c < 2 ^ 64 := by
      rw [chunk_cs_natCast, chunks_length samples c hcpos]
      have hnat := window_budget samples.length c hcpos hsamples hc
      have : ((samples.length + c - 1) / c * (c * 100 / 16000) : Nat) < (2 : Nat) ^ 63 := hnat
      push_cast
      push_cast at this
      nlinarith [this]
    have h := stitch_starts_mono engine (chunk_cs c) (chunk_cs_nonneg c)
      (chunks samples c) 0 1 0 (le_refl 0) hbound
      (fun k hk1 hk2 g hg => hseg k (by omega) g hg)
      (fun k hk1 hk2 => hord k (by omega))
    exact h.1

theorem C2_monotonic_starts_witness :
    ([(0 : Int), 0, 0] : List Int).length ≤ 2 ^ 61
    ∧ 16000 ≤ 2 ^ 64
    ∧ List.Chain' (· ≤ ·)
        ((handle_transcription
            (fun i => if i = 0 then [⟨0, 20, "a"⟩, ⟨50, 80, "b"⟩] else [])
            ([0, 0, 0] : List Int) 16000).map (fun s => s.start_time_cs)) := by
  refine ⟨by norm_num, by norm_num, ?_⟩
  apply C2_monotonic_starts Int _ _ _ (by norm_num) (by norm_num)
  · intro k hk g hg
    have hk1 : k = 0 ∨ 0 < k := by omega
    rcases hk1 with h0 | h0
    · subst h0
      simp only [if_pos rfl] at hg
      rcases List.mem_cons.mp hg with h | h
      · subst h
        constructor
        · norm_num
        · rw [chunk_cs_natCast]; norm_num
      · rcases List.mem_cons.mp h with h2 | h2
        · subst h2
          constructor
          · norm_num
          · rw [chunk_cs_natCast]; norm_num
        · exact absurd h2 (List.not_mem_nil g)
    · rw [if_neg (by omega)] at hg
      exact absurd hg (List.not_mem_nil g)
  · intro k hk
    by_cases h0 : k = 0
    · subst h0
      rw [if_pos rfl]
      exact List.chain'_cons.mpr ⟨by norm_num, List.chain'_singleton _⟩
    · rw [if_neg h0]
      exact List.chain'_nil

/-! ## Ingestion validation and the degenerate empty run -/

/-- C4: ingestion rejects a stream whose channel count is not 1, whose
sample format is not integer, whose sample rate is not 16000 Hz or whose
bit depth is not 16, with the error naming the first violated property
in check order, and an ingestion error propagates through the pipeline
before any windowing or inference; when all four properties hold,
ingestion returns the full sample sequence. -/
theorem C4_format_validation (engine : Nat → List EngSeg) (w : WavFile) (c : Nat) :
    (w.channels = 1 ∧ w.sample_format = WavSampleFormat.int ∧ w.sample_rate = 16000
        ∧ w.bits_per_sample = 16 → parse_wav_file w = .ok w.samples)
    ∧ (w.channels ≠ 1 → parse_wav_file w = .error "Expected mono audio file")
    ∧ (w.channels = 1 → w.sample_format ≠ WavSampleFormat.int →
        parse_wav_file w = .error "Expected integer sample format")
    ∧ (w.channels = 1 → w.sample_format = WavSampleFormat.int → w.sample_rate ≠ 16000 →
        parse_wav_file w = .error "Expected 16KHz sample rate")
    ∧ (w.channels = 1 → w.sample_format = WavSampleFormat.int → w.sample_rate = 16000 →
        w.bits_per_sample ≠ 16 → parse_wav_file w = .error "Expected 16 bits per sample")
    ∧ (∀ e, parse_wav_file w = .error e → main_pipeline engine w c = .error e) := by
  refine ⟨?_, ?_, ?_, ?_, ?_, ?_⟩
  · rintro ⟨h1, h2, h3, h4⟩
    simp [parse_wav_file, h1, h2, h3, h4]
  · intro h1
    simp [parse_wav_file, h1]
  · intro h1 h2
    simp [parse_wav_file, h1, h2]
  · intro h1 h2 h3
    simp [parse_wav_file, h1, h2, h3]
  · intro h1 h2 h3 h4
    simp [parse_wav_file, h1, h2, h3, h4]
  · intro e he
    unfold main_pipeline
    rw [he]

/-- C9: an empty sample buffer yields zero windows, zero accumulated
global segments and an empty raw transcript, and the pipeline signals no
error on it. -/
theorem C9_empty_buffer (engine : Nat → List EngSeg) (c : Nat) :
    chunks ([] : List Int) c = []
    ∧ handle_transcription engine ([] : List Int) c = []
    ∧ write_raw_transcript (handle_transcription engine ([] : List Int) c) = ""
    ∧ main_pipeline engine ⟨1, WavSampleFormat.int, 16000, 16, []⟩ c = .ok [] := by
  have h1 : chunks ([] : List Int) c = [] := chunks_nil c
  have h2 : handle_transcription engine ([] : List Int) c = [] := by
    unfold handle_transcription
    rw [h1]
    simp [stitchWindows]
  refine ⟨h1, h2, by rw [h2]; rfl, ?_⟩
  unfold main_pipeline
  simp only [parse_wav_file]
  norm_num
  exact h2

/-! ## The `HH:MM:SS,mmm` rendering, its digits, and the round trip -/

set_option maxRecDepth 4000 in
theorem pad2_data : ∀ n < 100, (pad2 n).data = [dch (n / 10), dch (n % 10)] := by
  decide

set_option maxRecDepth 40000 in
set_option maxHeartbeats 1000000 in
theorem pad3_data :
    ∀ n < 1000, (pad3 n).data = [dch (n / 100), dch (n / 10 % 10), dch (n % 10)] := by
  decide

theorem digitVal_dch : ∀ k < 10, digitVal (dch k) = some k := by decide

theorem cs_data (cs : Nat) :
    (cs_to_srt_time cs).data
      = [dch (cs / 100 / 3600 % 24 / 10), dch (cs / 100 / 3600 % 24 % 10), ':',
         dch (cs / 100 % 3600 / 60 / 10), dch (cs / 100 % 3600 / 60 % 10), ':',
         dch (cs / 100 % 60 / 10), dch (cs / 100 % 60 % 10), ',',
         dch (cs % 100 * 10 / 100), dch (cs % 100 * 10 / 10 % 10), dch (cs % 100 * 10 % 10)] := by
  unfold cs_to_srt_time
  simp only [String.data_append]
  rw [pad2_data _ (by omega), pad2_data _ (by omega), pad2_data _ (by omega),
    pad3_data _ (by omega)]
  rfl

/-- C10: the rendering reduces the hours field modulo 24 — the first two
characters of `cs_to_srt_time cs` are always the two digits of
`cs / 100 / 3600 % 24` — so 24 hours exactly renders as
`00:00:00,000`, the same string as 0 centiseconds, and the rendering is
not injective. -/
theorem C10_hours_wrap :
    (∀ cs : Nat, (cs_to_srt_time cs).data.take 2
      = [dch (cs / 100 / 3600 % 24 / 10), dch (cs / 100 / 3600 % 24 % 10)])
    ∧ cs_to_srt_time 8640000 = "00:00:00,000"
    ∧ cs_to_srt_time 8640000 = cs_to_srt_time 0
    ∧ ¬ Function.Injective cs_to_srt_time := by
  refine ⟨?_, by decide, by decide, ?_⟩
  · intro cs
    rw [cs_data]
    rfl
  · intro hinj
    have h : (8640000 : Nat) = 0 := hinj (by decide)
    exact absurd h (by norm_num)

/-- C8: for every centisecond value below 24 hours (8640000 cs),
rendering with `cs_to_srt_time` and parsing the `HH:MM:SS,mmm` string
back recovers the value exactly. -/
theorem C8_roundtrip (cs : Nat) (h : cs < 8640000) :
    srt_time_to_cs (cs_to_srt_time cs) = some cs := by
  unfold srt_time_to_cs
  rw [cs_data cs]
  simp only [parse_srt_timestamp]
  rw [if_pos (by simp)]
  rw [digitVal_dch _ (by omega), digitVal_dch _ (by omega), digitVal_dch _ (by omega),
    digitVal_dch _ (by omega), digitVal_dch _ (by omega), digitVal_dch _ (by omega),
    digitVal_dch _ (by omega), digitVal_dch _ (by omega), digitVal_dch _ (by omega)]
  exact congrArg some (by omega)

theorem C8_roundtrip_witness :
    5025 < 8640000 ∧ srt_time_to_cs (cs_to_srt_time 5025) = some 5025 :=
  ⟨by norm_num, C8_roundtrip 5025 (by norm_num)⟩

/-! ## The three emitted representations -/

theorem join_cons (s : String) (l : List String) :
    String.join (s :: l) = s ++ String.join l := by
  rw [String.join_eq, String.join_eq]
  simp only [List.map_cons, List.flatten_cons]
  rfl

theorem raw_eq_join (subs : List Subtitle) :
    write_raw_transcript subs = String.join (subs.map fun s => s.text) := by
  induction subs with
  | nil => rfl
  | cons s rest ih =>
    rw [List.map_cons, join_cons, ← ih]
    rfl

/-- C6 (as amended): the raw transcript is the concatenation of every
segment's text in order with nothing added between texts, and it
carries no timing information — it depends only on the text sequence. -/
theorem C6_raw_concatenation (subs : List Subtitle) :
    (write_raw_transcript subs = String.join (subs.map fun s => s.text))
    ∧ ∀ subs2 : List Subtitle,
        subs.map (fun s => s.text) = subs2.map (fun s => s.text) →
          write_raw_transcript subs = write_raw_transcript subs2 := by
  refine ⟨raw_eq_join subs, ?_⟩
  intro subs2 h
  rw [raw_eq_join, raw_eq_join, h]

/-- C6 counterexample: on the two-segment sequence with texts `"a"` and
`"b"` the emitted raw transcript is `"ab"`: the texts are not separated
by a single space nor by a newline, refuting the claim's separator. -/
theorem C6_raw_counterexample :
    write_raw_transcript [⟨1, 0, 100, "a"⟩, ⟨2, 200, 300, "b"⟩] = "ab"
    ∧ write_raw_transcript [⟨1, 0, 100, "a"⟩, ⟨2, 200, 300, "b"⟩] ≠ "a b"
    ∧ write_raw_transcript [⟨1, 0, 100, "a"⟩, ⟨2, 200, 300, "b"⟩] ≠ "a\nb" :=
  ⟨by decide, by decide, by decide⟩

theorem pushSegs_length (total : Int) (segs : List EngSeg) :
    ∀ seq, (pushSegs total segs seq).length = segs.length := by
  induction segs with
  | nil => intro seq; rfl
  | cons g gs ih => intro seq; simp [pushSegs, ih]

theorem pushSegs_map_seq (total : Int) (segs : List EngSeg) :
    ∀ seq, (pushSegs total segs seq).map (fun s => s.seq)
      = (List.range' seq segs.length).map u32_wrap := by
  induction segs with
  | nil => intro seq; rfl
  | cons g gs ih =>
    intro seq
    simp [pushSegs, ih, List.range'_succ]

theorem stitch_map_seq (engine : Nat → List EngSeg) (delta : Int)
    (ws : List (List γ)) :
    ∀ (i seq : Nat) (total : Int),
      (stitchWindows engine delta ws i seq total).map (fun s => s.seq)
        = (List.range' seq (stitchWindows engine delta ws i seq total).length).map u32_wrap := by
  induction ws with
  | nil => intro i seq total; rfl
  | cons w ws ih =>
    intro i seq total
    simp only [stitchWindows, List.map_append, List.length_append,
      pushSegs_map_seq, pushSegs_length, ih]
    have h := List.range'_append seq (engine i).length
      (stitchWindows engine delta ws (i + 1) (seq + (engine i).length)
        (total + delta)).length 1
    simp only [one_mul] at h
    rw [← List.map_append, h, Nat.add_comm]

/-- C5 (as amended): the stitched sequence carries, per segment, the
`u32` image of the running count starting at 1 — so the emitted indices
are exactly `1, 2, …, n` reduced modulo `2^32`, which is the plain
monotonically incrementing index starting at 1 whenever the run emits
fewer than `2^32` segments — and the emitted subtitle track is, per
segment, that index, a newline, the `HH:MM:SS,mmm --> HH:MM:SS,mmm`
range, a newline, the text and a terminating newline, the entries
concatenated directly, so consecutive entries are separated by a single
newline, not by a blank line. -/
theorem C5_srt_structure (α : Type) (engine : Nat → List EngSeg)
    (samples : List α) (c : Nat) :
    ((handle_transcription engine samples c).map (fun s => s.seq)
      = (List.range' 1 (handle_transcription engine samples c).length).map u32_wrap)
    ∧ ((handle_transcription engine samples c).length < 2 ^ 32 →
        (handle_transcription engine samples c).map (fun s => s.seq)
          = List.range' 1 (handle_transcription engine samples c).length)
    ∧ ∀ subs : List Subtitle,
        srt_output subs = String.join (subs.map subtitle_to_srt) := by
  have h1 : (handle_transcription engine samples c).map (fun s => s.seq)
      = (List.range' 1 (handle_transcription engine samples c).length).map u32_wrap := by
    unfold handle_transcription
    exact stitch_map_seq engine (chunk_cs c) (chunks samples c) 0 1 0
  refine ⟨h1, ?_, ?_⟩
  · intro hlen
    rw [h1]
    have hids : ∀ k ∈ List.range' 1 (handle_transcription engine samples c).length,
        u32_wrap k = k := by
      intro k hk
      rcases List.mem_range'_1.mp hk with ⟨hk1, hk2⟩
      unfold u32_wrap
      omega
    rw [List.map_congr_left hids, List.map_id']
  · intro subs
    induction subs with
    | nil => rfl
    | cons s rest ih =>
      rw [List.map_cons, join_cons, ← ih]
      rfl

theorem hasDoubleNewline_append (l2 : List Char) :
    ∀ l1 : List Char, hasDoubleNewline (l1 ++ '\n' :: '\n' :: l2) = true := by
  intro l1
  induction l1 with
  | nil => simp [hasDoubleNewline]
  | cons a t ih =>
    cases t with
    | nil => simp [hasDoubleNewline]
    | cons b t2 =>
      simp only [List.cons_append] at ih ⊢
      simp [hasDoubleNewline, ih]

/-- C5 counterexample: on the stitched two-segment sequence of the
spec's scenario the emitted subtitle track is
`"1\n00:00:00,000 --> 00:00:15,000\nhello\n2\n…world\n"`, a string that
contains no two consecutive newlines anywhere — so no two entries are
separated by a blank line, refuting the claimed blank-line separator. -/
theorem C5_srt_counterexample :
    srt_output [⟨1, 0, 1500, "hello"⟩, ⟨2, 3000, 4000, "world"⟩]
        = "1\n00:00:00,000 --> 00:00:15,000\nhello\n2\n00:00:30,000 --> 00:00:40,000\nworld\n"
    ∧ ¬ ∃ l1 l2 : List Char,
        (srt_output [⟨1, 0, 1500, "hello"⟩, ⟨2, 3000, 4000, "world"⟩]).data
          = l1 ++ '\n' :: '\n' :: l2 := by
  constructor
  · decide
  · rintro ⟨l1, l2, hsplit⟩
    have hb : hasDoubleNewline
        ((srt_output [⟨1, 0, 1500, "hello"⟩, ⟨2, 3000, 4000, "world"⟩]).data) = false := by
      decide
    rw [hsplit, hasDoubleNewline_append l2 l1] at hb
    exact Bool.noConfusion hb

theorem cs_no_newline (cs : Nat) : '\n' ∉ (cs_to_srt_time cs).data := by
  rw [cs_data]
  have hd : ∀ k < 10, dch k ≠ '\n' := by decide
  intro hmem
  simp only [List.mem_cons, List.not_mem_nil, or_false] at hmem
  rcases hmem with h|h|h|h|h|h|h|h|h|h|h|h
  all_goals first
    | exact hd _ (by omega) h.symm
    | exact absurd h (by decide)

/-- C7 (as amended): the timestamped transcript is one line per segment
of the form `[<start> --> <end>]: <text>` — the two ends separated by
`" --> "`, not `" - "` — with both `<start>` and `<end>` rendered from
the internal centisecond offsets by the one fixed conversion
`cs_to_srt_time`; for newline-free texts the output has exactly one
newline (one line) per segment. -/
theorem C7_timestamped_lines (subs : List Subtitle)
    (htext : ∀ s ∈ subs, '\n' ∉ s.text.data) :
    timestamps_output subs
      = String.join (subs.map fun s =>
          "[" ++ cs_to_srt_time s.start_time_cs ++ " --> "
            ++ cs_to_srt_time s.end_time_cs ++ "]: " ++ s.text ++ "\n")
    ∧ (timestamps_output subs).data.count '\n' = subs.length := by
  induction subs with
  | nil => exact ⟨rfl, rfl⟩
  | cons s rest ih =>
    have ihv := ih (fun t ht => htext t (List.mem_cons_of_mem s ht))
    have hline : timestamps_output (s :: rest)
        = ("[" ++ cs_to_srt_time s.start_time_cs ++ " --> "
            ++ cs_to_srt_time s.end_time_cs ++ "]: " ++ s.text ++ "\n")
          ++ timestamps_output rest := rfl
    constructor
    · rw [List.map_cons, join_cons, ← ihv.1, hline]
    · rw [hline, String.data_append, List.count_append, ihv.2]
      have h1 : ("[" ++ cs_to_srt_time s.start_time_cs ++ " --> "
          ++ cs_to_srt_time s.end_time_cs ++ "]: " ++ s.text ++ "\n").data.count '\n' = 1 := by
        simp only [String.data_append, List.count_append]
        rw [List.count_eq_zero.mpr (cs_no_newline s.start_time_cs),
          List.count_eq_zero.mpr (cs_no_newline s.end_time_cs),
          List.count_eq_zero.mpr (htext s (List.mem_cons_self s rest))]
        have c1 : List.count '\n' ['['] = 0 := by decide
        have c2 : List.count '\n' [' ', '-', '-', '>', ' '] = 0 := by decide
        have c3 : List.count '\n' [']', ':', ' '] = 0 := by decide
        have c4 : List.count '\n' ['\n'] = 1 := by decide
        omega
      rw [h1]
      simp [List.length_cons]
      omega

theorem C7_timestamped_lines_witness :
    (∀ s ∈ [(⟨1, 0, 1500, "hi"⟩ : Subtitle)], '\n' ∉ s.text.data)
    ∧ (timestamps_output [(⟨1, 0, 1500, "hi"⟩ : Subtitle)]
        = String.join ([(⟨1, 0, 1500, "hi"⟩ : Subtitle)].map fun s =>
            "[" ++ cs_to_srt_time s.start_time_cs ++ " --> "
              ++ cs_to_srt_time s.end_time_cs ++ "]: " ++ s.text ++ "\n")
      ∧ (timestamps_output [(⟨1, 0, 1500, "hi"⟩ : Subtitle)]).data.count '\n'
          = [(⟨1, 0, 1500, "hi"⟩ : Subtitle)].length) :=
  ⟨by decide, C7_timestamped_lines [⟨1, 0, 1500, "hi"⟩] (by decide)⟩

/-- C7 counterexample: on a segment whose internal start and end
centiseconds are equal (so any single fixed conversion renders the two
ends identically), the emitted line cannot be split as
`[<t> - <t>]: text` for any rendered timestamp `<t>`: the emitted line
contains two `-` characters (from `" --> "`) while any such split would
contain an odd number, refuting the claimed `" - "` separator. -/
theorem C7_timestamped_counterexample :
    ¬ ∃ B : String,
      timestamps_output [⟨1, 0, 0, "t"⟩]
          = "[" ++ B ++ " - " ++ B ++ "]: " ++ "t" ++ "\n"
        ∨ timestamps_output [⟨1, 0, 0, "t"⟩]
          = "[" ++ B ++ " - " ++ B ++ "]: " ++ "t" := by
  rintro ⟨B, h | h⟩ <;> {
    have hL : (timestamps_output [⟨1, 0, 0, "t"⟩]).data.count '-' = 2 := by decide
    rw [h] at hL
    simp only [String.data_append, List.count_append] at hL
    have e1 : List.count '-' ['['] = 0 := by decide
    have e2 : List.count '-' [' ', '-', ' '] = 1 := by decide
    have e3 : List.count '-' [']', ':', ' '] = 0 := by decide
    have e4 : List.count '-' ['t'] = 0 := by decide
    have e5 : List.count '-' ['\n'] = 0 := by decide
    omega
  }

end Transcriber
